import Mathlib

/-!
Verification development for CrabParser, a boundary-aware text segmentation
engine with a memory-efficient chunk container.  The visible repository code
(`main.py`) only exercises the engine; the engine itself (parser, chunk
assembler, chunk store, persistence) is the published library, modelled here
from its specification.  Text is modelled as `List Char`; byte length of a
document is modelled as its character count.
-/

namespace CrabParser

/-- Modelled from the spec: parser Configuration — `chunk_size` (positive
integer target maximum chunk length) and `respect_paragraphs` (whether
paragraph boundaries are preferred over sentence/character wrapping). -/
structure Config where
  chunk_size : Nat
  respect_paragraphs : Bool
deriving DecidableEq, Repr

/-- Modelled from the spec: parsing mode selected by the File Kind
Classifier — plain text vs. code-aware. -/
inductive Mode where
  | plainText : Mode
  | code : Mode
deriving DecidableEq, Repr

/-- Does the text start with a newline character? -/
def startsNL (s : List Char) : Bool :=
  match s with
  | [] => false
  | c :: _ => c = '\n'

/-- Modelled from the spec: paragraph-level splitting of the Boundary
Detector.  A paragraph boundary is a run of two or more consecutive newline
characters; boundary whitespace is retained with the preceding unit (the
spec's recommended deterministic convention).  `acc` holds the current
unit's characters in reverse; `b` records whether the scanner is inside a
boundary newline run. -/
def spGo (b : Bool) (acc : List Char) (s : List Char) : List (List Char) :=
  match s with
  | [] => if acc.isEmpty then [] else [acc.reverse]
  | c :: rest =>
    match b with
    | true =>
      if c = '\n' then spGo true (c :: acc) rest
      else acc.reverse :: spGo false [c] rest
    | false =>
      if c = '\n' && startsNL rest then spGo true (c :: acc) rest
      else spGo false (c :: acc) rest

/-- Split a document into paragraph units (each unit keeps its trailing
newline-run boundary). -/
def splitParas (s : List Char) : List (List Char) := spGo false [] s

theorem spGo_flatten (b : Bool) (acc s : List Char) :
    (spGo b acc s).flatten = acc.reverse ++ s := by
  induction s generalizing b acc with
  | nil =>
    rw [spGo]
    split
    · simp_all [List.isEmpty_iff]
    · simp
  | cons c rest ih =>
    cases b with
    | true =>
      rw [spGo]
      split
      · simp [ih]
      · simp [ih]
    | false =>
      rw [spGo]
      split
      · simp [ih]
      · simp [ih]

theorem splitParas_flatten (s : List Char) : (splitParas s).flatten = s := by
  simpa using spGo_flatten false [] s

/-- Sentence-terminal punctuation recognised by the Boundary Detector. -/
def isTerm (c : Char) : Bool := c = '.' || c = '!' || c = '?'

/-- Whitespace characters used as boundary signals. -/
def isWs (c : Char) : Bool := c = ' ' || c = '\n' || c = '\t' || c = '\r'

/-- Does the text start with a whitespace character? -/
def startsWs (s : List Char) : Bool :=
  match s with
  | [] => false
  | c :: _ => isWs c

/-- Modelled from the spec: sentence-level splitting of the Boundary
Detector.  A sentence boundary is sentence-terminal punctuation followed by
whitespace; the boundary whitespace run is retained with the preceding
unit.  `b` records whether the scanner is inside a boundary whitespace
run. -/
def ssGo (b : Bool) (acc : List Char) (s : List Char) : List (List Char) :=
  match s with
  | [] => if acc.isEmpty then [] else [acc.reverse]
  | c :: rest =>
    match b with
    | true =>
      if isWs c then ssGo true (c :: acc) rest
      else acc.reverse :: ssGo false [c] rest
    | false =>
      if isTerm c && startsWs rest then ssGo true (c :: acc) rest
      else ssGo false (c :: acc) rest

/-- Split a document into sentence units. -/
def splitSents (s : List Char) : List (List Char) := ssGo false [] s

theorem ssGo_flatten (b : Bool) (acc s : List Char) :
    (ssGo b acc s).flatten = acc.reverse ++ s := by
  induction s generalizing b acc with
  | nil =>
    rw [ssGo]
    split
    · simp_all [List.isEmpty_iff]
    · simp
  | cons c rest ih =>
    cases b with
    | true =>
      rw [ssGo]
      split
      · simp [ih]
      · simp [ih]
    | false =>
      rw [ssGo]
      split
      · simp [ih]
      · simp [ih]

theorem splitSents_flatten (s : List Char) : (splitSents s).flatten = s := by
  simpa using ssGo_flatten false [] s

/-- Modelled from the spec: hard character wrap, the weakest fallback
level — split a unit into consecutive runs of at most `n` characters.
`acc` holds the current run in reverse and `k` its remaining capacity. -/
def hwGo (n : Nat) (acc : List Char) (k : Nat) (s : List Char) : List (List Char) :=
  match s with
  | [] => if acc.isEmpty then [] else [acc.reverse]
  | c :: rest =>
    match k with
    | 0 => acc.reverse :: hwGo n [c] (n - 1) rest
    | k2 + 1 => hwGo n (c :: acc) k2 rest

/-- Hard character wrap: consecutive runs of at most `n` characters. -/
def hardWrap (n : Nat) (s : List Char) : List (List Char) := hwGo n [] n s

theorem hwGo_flatten (n : Nat) (acc : List Char) (k : Nat) (s : List Char) :
    (hwGo n acc k s).flatten = acc.reverse ++ s := by
  induction s generalizing acc k with
  | nil =>
    rw [hwGo]
    split
    · simp_all [List.isEmpty_iff]
    · simp
  | cons c rest ih =>
    cases k with
    | zero =>
      rw [hwGo]
      simp [ih]
    | succ k2 =>
      rw [hwGo]
      simp [ih]

theorem hardWrap_flatten (n : Nat) (s : List Char) : (hardWrap n s).flatten = s := by
  simpa using hwGo_flatten n [] n s

theorem hwGo_bound (n : Nat) (hn : n ≠ 0) (acc : List Char) (k : Nat) (s : List Char)
    (h : acc.length + k ≤ n) : ∀ c ∈ hwGo n acc k s, c.length ≤ n := by
  induction s generalizing acc k with
  | nil =>
    intro c hc
    rw [hwGo] at hc
    split at hc
    · simp_all
    · simp only [List.mem_singleton] at hc
      subst hc
      simp only [List.length_reverse]
      omega
  | cons c rest ih =>
    intro d hd
    cases k with
    | zero =>
      rw [hwGo] at hd
      rcases List.mem_cons.mp hd with rfl | hd
      · simp only [List.length_reverse]
        omega
      · exact ih [c] (n - 1) (by simp; omega) d hd
    | succ k2 =>
      rw [hwGo] at hd
      exact ih (c :: acc) k2 (by simp at h ⊢; omega) d hd

theorem hardWrap_bound (n : Nat) (hn : n ≠ 0) (s : List Char) :
    ∀ c ∈ hardWrap n s, c.length ≤ n :=
  hwGo_bound n hn [] n s (by simp)

/-- Split a document into lines; each line keeps its trailing newline. -/
def slGo (acc : List Char) (s : List Char) : List (List Char) :=
  match s with
  | [] => if acc.isEmpty then [] else [acc.reverse]
  | c :: rest =>
    if c = '\n' then (acc.reverse ++ [c]) :: slGo [] rest
    else slGo (c :: acc) rest

/-- Split a document into its lines. -/
def splitLines (s : List Char) : List (List Char) := slGo [] s

theorem slGo_flatten (acc s : List Char) :
    (slGo acc s).flatten = acc.reverse ++ s := by
  induction s generalizing acc with
  | nil =>
    rw [slGo]
    split
    · simp_all [List.isEmpty_iff]
    · simp
  | cons c rest ih =>
    rw [slGo]
    split
    · rename_i h
      subst h
      simp [ih]
    · simp [ih]

theorem splitLines_flatten (s : List Char) : (splitLines s).flatten = s := by
  simpa using slGo_flatten [] s

/-- Drop leading spaces and tabs (line indentation). -/
def dropIndent : List Char → List Char
  | [] => []
  | c :: rest => if c = ' ' || c = '\t' then dropIndent rest else c :: rest

/-- Does `s` start with the pattern `p`? -/
def startsWith : List Char → List Char → Bool
  | [], _ => true
  | _ :: _, [] => false
  | p :: ps, c :: cs => p = c && startsWith ps cs

/-- Modelled from the spec: code-block boundary recognition of the Boundary
Detector — a line beginning a definition-like construct (declaration keyword
at start of line, ignoring leading whitespace). -/
def isDefLine (l : List Char) : Bool :=
  let s := dropIndent l
  startsWith "def ".toList s || startsWith "class ".toList s ||
    startsWith "fn ".toList s || startsWith "function ".toList s

/-- Modelled from the spec: group a document's lines into code-block units —
a chunk break is preferred immediately before a new definition line. -/
def gcGo (acc : List Char) (ls : List (List Char)) : List (List Char) :=
  match ls with
  | [] => if acc.isEmpty then [] else [acc]
  | l :: rest =>
    if isDefLine l && !acc.isEmpty then acc :: gcGo l rest
    else gcGo (acc ++ l) rest

/-- Split a document into code-block units. -/
def splitCode (s : List Char) : List (List Char) := gcGo [] (splitLines s)

theorem gcGo_flatten (acc : List Char) (ls : List (List Char)) :
    (gcGo acc ls).flatten = acc ++ ls.flatten := by
  induction ls generalizing acc with
  | nil =>
    rw [gcGo]
    split
    · simp_all [List.isEmpty_iff]
    · simp
  | cons l rest ih =>
    rw [gcGo]
    split
    · simp [ih]
    · simp [ih]

theorem splitCode_flatten (s : List Char) : (splitCode s).flatten = s := by
  simp [splitCode, gcGo_flatten, splitLines_flatten]

/-- Modelled from the spec: sentence-level fallback of the Chunk Assembler —
a sentence unit that fits is kept whole; one exceeding `n` falls back to the
hard character wrap. -/
def sentUnits (n : Nat) (u : List Char) : List (List Char) :=
  if u.length ≤ n then [u] else hardWrap n u

/-- Modelled from the spec: paragraph-level fallback of the Chunk Assembler —
a paragraph unit that fits is kept whole; one exceeding `n` is split at
sentence boundaries, each sentence falling back further as needed. -/
def paraUnits (n : Nat) (u : List Char) : List (List Char) :=
  if u.length ≤ n then [u] else ((splitSents u).map (sentUnits n)).flatten

/-- Modelled from the spec: code-block-level fallback of the Chunk
Assembler — a code-block unit that fits is kept whole; one exceeding `n` is
split at paragraph boundaries, falling back further as needed. -/
def codeUnits (n : Nat) (u : List Char) : List (List Char) :=
  if u.length ≤ n then [u] else ((splitParas u).map (paraUnits n)).flatten

/-- Modelled from the spec: the semantic units the Chunk Assembler packs,
after the cascading fallback (CodeBlock → Paragraph → Sentence → Hard) has
reduced every oversized unit. -/
def unitsOfMode (mode : Mode) (cfg : Config) (t : List Char) : List (List Char) :=
  match mode with
  | Mode.code => ((splitCode t).map (codeUnits cfg.chunk_size)).flatten
  | Mode.plainText =>
    if cfg.respect_paragraphs then ((splitParas t).map (paraUnits cfg.chunk_size)).flatten
    else ((splitSents t).map (sentUnits cfg.chunk_size)).flatten

/-- Modelled from the spec: greedy packing loop of the Chunk Assembler —
accumulate units into the current chunk while the running length stays
within `n`; emit the chunk immediately before the unit that would
overflow. -/
def packGo (n : Nat) (cur : List Char) (us : List (List Char)) : List (List Char) :=
  match us with
  | [] => [cur]
  | u :: rest =>
    if cur.length + u.length ≤ n then packGo n (cur ++ u) rest
    else cur :: packGo n u rest

/-- Modelled from the spec: greedy packing of units into chunks. -/
def pack (n : Nat) (us : List (List Char)) : List (List Char) :=
  match us with
  | [] => []
  | u :: rest => packGo n u rest

/-- Modelled from the spec: the full parse pipeline for a given mode —
boundary detection, cascading fallback, then greedy assembly. -/
def parseMode (mode : Mode) (cfg : Config) (t : List Char) : List (List Char) :=
  pack cfg.chunk_size (unitsOfMode mode cfg t)

/-- Modelled from the spec: `parse(text)` — in-memory text is parsed in
plain-text mode, returning the ordered chunk sequence. -/
def parse (cfg : Config) (t : List Char) : List (List Char) :=
  parseMode Mode.plainText cfg t

theorem packGo_flatten (n : Nat) (cur : List Char) (us : List (List Char)) :
    (packGo n cur us).flatten = cur ++ us.flatten := by
  induction us generalizing cur with
  | nil => simp [packGo]
  | cons u rest ih =>
    rw [packGo]
    split
    · simp [ih]
    · simp [ih]

theorem pack_flatten (n : Nat) (us : List (List Char)) :
    (pack n us).flatten = us.flatten := by
  cases us with
  | nil => rfl
  | cons u rest => simp [pack, packGo_flatten]

theorem packGo_bound (n : Nat) (cur : List Char) (us : List (List Char))
    (hc : cur.length ≤ n) (hu : ∀ u ∈ us, u.length ≤ n) :
    ∀ c ∈ packGo n cur us, c.length ≤ n := by
  induction us generalizing cur with
  | nil =>
    intro c hcm
    rw [packGo] at hcm
    simp only [List.mem_singleton] at hcm
    subst hcm
    exact hc
  | cons u rest ih =>
    intro c hcm
    rw [packGo] at hcm
    split at hcm
    · rename_i hfit
      refine ih (cur ++ u) (by simpa using hfit) (fun v hv => hu v (List.mem_cons_of_mem u hv)) c hcm
    · rcases List.mem_cons.mp hcm with rfl | hcm
      · exact hc
      · exact ih u (hu u (List.mem_cons_self u rest)) (fun v hv => hu v (List.mem_cons_of_mem u hv)) c hcm

theorem packGo_small (n : Nat) (cur : List Char) (us : List (List Char))
    (h : cur.length + us.flatten.length ≤ n) :
    packGo n cur us = [cur ++ us.flatten] := by
  induction us generalizing cur with
  | nil => simp [packGo]
  | cons u rest ih =>
    rw [packGo]
    have hlen : cur.length + u.length ≤ n := by
      simp only [List.flatten_cons, List.length_append] at h
      omega
    rw [if_pos hlen]
    rw [ih (cur ++ u) (by simp only [List.flatten_cons, List.length_append] at h ⊢; omega)]
    simp

theorem sentUnits_flatten (n : Nat) (u : List Char) : (sentUnits n u).flatten = u := by
  rw [sentUnits]
  split
  · simp
  · exact hardWrap_flatten n u

theorem flatten_map_flatten (f : List Char → List (List Char))
    (h : ∀ x, (f x).flatten = x) (l : List (List Char)) :
    ((l.map f).flatten).flatten = l.flatten := by
  induction l with
  | nil => rfl
  | cons x xs ih => simp [h, ih]

theorem paraUnits_flatten (n : Nat) (u : List Char) : (paraUnits n u).flatten = u := by
  rw [paraUnits]
  split
  · simp
  · rw [flatten_map_flatten (sentUnits n) (sentUnits_flatten n)]
    exact splitSents_flatten u

theorem codeUnits_flatten (n : Nat) (u : List Char) : (codeUnits n u).flatten = u := by
  rw [codeUnits]
  split
  · simp
  · rw [flatten_map_flatten (paraUnits n) (paraUnits_flatten n)]
    exact splitParas_flatten u

theorem unitsOfMode_flatten (mode : Mode) (cfg : Config) (t : List Char) :
    (unitsOfMode mode cfg t).flatten = t := by
  cases mode with
  | code =>
    rw [unitsOfMode, flatten_map_flatten (codeUnits cfg.chunk_size) (codeUnits_flatten cfg.chunk_size)]
    exact splitCode_flatten t
  | plainText =>
    rw [unitsOfMode]
    split
    · rw [flatten_map_flatten (paraUnits cfg.chunk_size) (paraUnits_flatten cfg.chunk_size)]
      exact splitParas_flatten t
    · rw [flatten_map_flatten (sentUnits cfg.chunk_size) (sentUnits_flatten cfg.chunk_size)]
      exact splitSents_flatten t

theorem sentUnits_bound (n : Nat) (hn : n ≠ 0) (u : List Char) :
    ∀ c ∈ sentUnits n u, c.length ≤ n := by
  rw [sentUnits]
  split
  · rename_i h
    intro c hc
    simp only [List.mem_singleton] at hc
    subst hc
    exact h
  · exact hardWrap_bound n hn u

theorem mem_flatten_map {f : List Char → List (List Char)} {l : List (List Char)}
    {c : List Char} (hc : c ∈ (l.map f).flatten) : ∃ x ∈ l, c ∈ f x := by
  rcases List.mem_flatten.mp hc with ⟨g, hg, hcg⟩
  rcases List.mem_map.mp hg with ⟨x, hx, rfl⟩
  exact ⟨x, hx, hcg⟩

theorem paraUnits_bound (n : Nat) (hn : n ≠ 0) (u : List Char) :
    ∀ c ∈ paraUnits n u, c.length ≤ n := by
  rw [paraUnits]
  split
  · rename_i h
    intro c hc
    simp only [List.mem_singleton] at hc
    subst hc
    exact h
  · intro c hc
    rcases mem_flatten_map hc with ⟨x, _, hcx⟩
    exact sentUnits_bound n hn x c hcx

theorem codeUnits_bound (n : Nat) (hn : n ≠ 0) (u : List Char) :
    ∀ c ∈ codeUnits n u, c.length ≤ n := by
  rw [codeUnits]
  split
  · rename_i h
    intro c hc
    simp only [List.mem_singleton] at hc
    subst hc
    exact h
  · intro c hc
    rcases mem_flatten_map hc with ⟨x, _, hcx⟩
    exact paraUnits_bound n hn x c hcx

theorem unitsOfMode_bound (mode : Mode) (cfg : Config) (t : List Char)
    (hn : cfg.chunk_size ≠ 0) :
    ∀ u ∈ unitsOfMode mode cfg t, u.length ≤ cfg.chunk_size := by
  cases mode with
  | code =>
    intro u hu
    rcases mem_flatten_map hu with ⟨x, _, hux⟩
    exact codeUnits_bound cfg.chunk_size hn x u hux
  | plainText =>
    rw [unitsOfMode]
    split
    · intro u hu
      rcases mem_flatten_map hu with ⟨x, _, hux⟩
      exact paraUnits_bound cfg.chunk_size hn x u hux
    · intro u hu
      rcases mem_flatten_map hu with ⟨x, _, hux⟩
      exact sentUnits_bound cfg.chunk_size hn x u hux

theorem parseMode_flatten (mode : Mode) (cfg : Config) (t : List Char) :
    (parseMode mode cfg t).flatten = t := by
  rw [parseMode, pack_flatten]
  exact unitsOfMode_flatten mode cfg t

theorem parseMode_bound (mode : Mode) (cfg : Config) (t : List Char)
    (hn : cfg.chunk_size ≠ 0) :
    ∀ c ∈ parseMode mode cfg t, c.length ≤ cfg.chunk_size := by
  rw [parseMode]
  cases hu : unitsOfMode mode cfg t with
  | nil => simp [pack]
  | cons u rest =>
    rw [pack]
    refine packGo_bound cfg.chunk_size u rest ?_ ?_
    · exact unitsOfMode_bound mode cfg t hn u (by rw [hu]; exact List.mem_cons_self u rest)
    · intro v hv
      exact unitsOfMode_bound mode cfg t hn v (by rw [hu]; exact List.mem_cons_of_mem u hv)

theorem parse_flatten (cfg : Config) (t : List Char) :
    (parse cfg t).flatten = t :=
  parseMode_flatten Mode.plainText cfg t

theorem splitParas_nil : splitParas [] = [] := by
  rw [splitParas, spGo]
  rfl

theorem splitSents_nil : splitSents [] = [] := by
  rw [splitSents, ssGo]
  rfl

theorem parse_nil (cfg : Config) : parse cfg [] = [] := by
  rw [parse, parseMode, unitsOfMode]
  split
  · rw [splitParas_nil]
    rfl
  · rw [splitSents_nil]
    rfl

theorem parse_single (cfg : Config) (t : List Char) (ht : t ≠ [])
    (hlen : t.length ≤ cfg.chunk_size) : parse cfg t = [t] := by
  have hflat := unitsOfMode_flatten Mode.plainText cfg t
  rw [parse, parseMode]
  cases hu : unitsOfMode Mode.plainText cfg t with
  | nil =>
    rw [hu] at hflat
    exact absurd hflat.symm ht
  | cons u rest =>
    rw [pack, packGo_small]
    · rw [hu] at hflat
      simp only [List.flatten_cons] at hflat
      rw [hflat]
    · rw [hu] at hflat
      simp only [List.flatten_cons] at hflat
      calc u.length + rest.flatten.length = (u ++ rest.flatten).length := by simp
        _ = t.length := by rw [hflat]
        _ ≤ cfg.chunk_size := hlen

/-- Modelled from the spec: the Chunk Store — owns the Document's text
buffer plus an ordered sequence of (start, end) offset pairs computed once
at construction; chunk text is materialized on demand per accessed chunk. -/
structure ChunkStore where
  text : List Char
  spans : List (Nat × Nat)
  source_file : Option (List Char)
deriving DecidableEq, Repr

/-- Offset pairs of consecutive chunks, starting at offset `off`. -/
def spansFrom (off : Nat) : List (List Char) → List (Nat × Nat)
  | [] => []
  | c :: rest => (off, off + c.length) :: spansFrom (off + c.length) rest

/-- Materialize the text of one span as a view into the store's buffer. -/
def chunkText (s : ChunkStore) (sp : Nat × Nat) : List Char :=
  (s.text.drop sp.1).take (sp.2 - sp.1)

/-- Modelled from the spec: `parse_chunked(text)` — parses and wraps the
result into a Chunk Store without materializing chunk text eagerly. -/
def parse_chunked (cfg : Config) (t : List Char) : ChunkStore :=
  ⟨t, spansFrom 0 (parse cfg t), none⟩

/-- Modelled from the spec: `length()` — number of chunks held by the
store. -/
def ChunkStore.length (s : ChunkStore) : Nat := s.spans.length

/-- The chunk texts of the store in construction order (iteration). -/
def ChunkStore.materialize (s : ChunkStore) : List (List Char) :=
  s.spans.map (chunkText s)

/-- Modelled from the spec: `total_size()` — sum of original Document bytes
spanned by the chunks, independent of any text re-materialization. -/
def ChunkStore.total_size (s : ChunkStore) : Nat :=
  (s.spans.map (fun sp => sp.2 - sp.1)).sum

/-- Modelled from the spec: indexed access `at(i)` — non-negative indices
address chunks left to right, negative indices address from the end, and an
OutOfRange error is raised for `i ≥ length()` or `i < -length()`. -/
def ChunkStore.getAt (s : ChunkStore) (i : Int) : Except String (List Char) :=
  let j : Int := if i < 0 then i + s.spans.length else i
  if j < 0 then Except.error "OutOfRange"
  else
    match s.spans[j.toNat]? with
    | some sp => Except.ok (chunkText s sp)
    | none => Except.error "OutOfRange"

/-- Modelled from the spec: `slice(start, end)` — the ordered sub-sequence
of chunks for `[start, end)`, with the end bound clamped to valid bounds and
an OutOfRange error only for an invalid start. -/
def ChunkStore.get_slice (s : ChunkStore) (a b : Int) : Except String (List (List Char)) :=
  let n : Int := s.spans.length
  let a2 : Int := if a < 0 then a + n else a
  if a2 < 0 ∨ n < a2 then Except.error "OutOfRange"
  else
    let b2 : Int := if b < 0 then b + n else b
    let b3 : Int := min b2 n
    Except.ok (((s.spans.take b3.toNat).drop a2.toNat).map (chunkText s))

/-- Python-style list slicing `l[a:b]`, the specification's reference
semantics for `slice`: negative indices count from the end and both bounds
clamp to the valid range, never raising an error. -/
def pySlice (l : List (List Char)) (a b : Int) : List (List Char) :=
  let n : Int := l.length
  let a2 : Int := if a < 0 then a + n else a
  let b2 : Int := if b < 0 then b + n else b
  (l.take b2.toNat).drop a2.toNat

theorem spansFrom_length (off : Nat) (chunks : List (List Char)) :
    (spansFrom off chunks).length = chunks.length := by
  induction chunks generalizing off with
  | nil => rfl
  | cons c rest ih => simp [spansFrom, ih]

theorem spansFrom_sizes (off : Nat) (chunks : List (List Char)) :
    ((spansFrom off chunks).map (fun sp => sp.2 - sp.1)).sum
      = (chunks.map List.length).sum := by
  induction chunks generalizing off with
  | nil => rfl
  | cons c rest ih => simp [spansFrom, ih]

theorem spansFrom_extract (chunks : List (List Char)) (off : Nat) (t : List Char)
    (h : t.drop off = chunks.flatten) :
    (spansFrom off chunks).map (fun sp => (t.drop sp.1).take (sp.2 - sp.1)) = chunks := by
  induction chunks generalizing off with
  | nil => rfl
  | cons c rest ih =>
    simp only [spansFrom, List.map_cons, List.flatten_cons] at h ⊢
    rw [List.cons.injEq]
    constructor
    · rw [h, Nat.add_sub_cancel_left]
      exact List.take_left c rest.flatten
    · refine ih (off + c.length) ?_
      have : t.drop (off + c.length) = (t.drop off).drop c.length := by
        rw [List.drop_drop, Nat.add_comm]
      rw [this, h]
      exact List.drop_left c rest.flatten

theorem materialize_parse_chunked (cfg : Config) (t : List Char) :
    (parse_chunked cfg t).materialize = parse cfg t := by
  rw [parse_chunked, ChunkStore.materialize]
  exact spansFrom_extract (parse cfg t) 0 t (by simpa using (parse_flatten cfg t).symm)

theorem length_parse_chunked (cfg : Config) (t : List Char) :
    (parse_chunked cfg t).length = (parse cfg t).length := by
  rw [parse_chunked, ChunkStore.length]
  exact spansFrom_length 0 (parse cfg t)

theorem total_size_parse_chunked (cfg : Config) (t : List Char) :
    (parse_chunked cfg t).total_size = t.length := by
  rw [parse_chunked, ChunkStore.total_size]
  have h1 := spansFrom_sizes 0 (parse cfg t)
  have h2 : ((parse cfg t).map List.length).sum = (parse cfg t).flatten.length := by
    rw [List.length_flatten]
  rw [h1, h2, parse_flatten]

theorem getAt_nonneg (s : ChunkStore) (i : Int) (h0 : 0 ≤ i)
    (h1 : i < (s.length : Int)) :
    ∃ c, s.materialize[i.toNat]? = some c ∧ s.getAt i = Except.ok c := by
  have hn : i.toNat < s.spans.length := by
    rw [ChunkStore.length] at h1
    omega
  have hsp : s.spans[i.toNat]? = some (s.spans[i.toNat]) := List.getElem?_eq_getElem hn
  refine ⟨chunkText s (s.spans[i.toNat]), ?_, ?_⟩
  · rw [ChunkStore.materialize, List.getElem?_map, hsp]
    rfl
  · rw [ChunkStore.getAt]
    simp only [if_neg (by omega : ¬ i < (0 : Int))]
    rw [hsp]

theorem getAt_neg (s : ChunkStore) (i : Int) (h0 : i < 0)
    (h1 : -(s.length : Int) ≤ i) :
    ∃ c, s.materialize[(i + s.length).toNat]? = some c ∧ s.getAt i = Except.ok c := by
  have hlen : (s.length : Int) = (s.spans.length : Int) := by rw [ChunkStore.length]
  have hn : (i + s.length).toNat < s.spans.length := by omega
  have hsp : s.spans[(i + s.length).toNat]? = some (s.spans[(i + s.length).toNat]) :=
    List.getElem?_eq_getElem hn
  refine ⟨chunkText s (s.spans[(i + s.length).toNat]), ?_, ?_⟩
  · rw [ChunkStore.materialize, List.getElem?_map, hsp]
    rfl
  · rw [ChunkStore.getAt]
    simp only [if_pos h0]
    have he : i + (s.spans.length : Int) = i + (s.length : Int) := by omega
    rw [he, if_neg (by omega : ¬ i + (s.length : Int) < 0), hsp]

theorem getAt_oob (s : ChunkStore) (i : Int)
    (h : (s.length : Int) ≤ i ∨ i < -(s.length : Int)) :
    s.getAt i = Except.error "OutOfRange" := by
  have hlen : (s.length : Int) = (s.spans.length : Int) := by rw [ChunkStore.length]
  rcases h with h | h
  · have h0 : ¬ i < (0 : Int) := by omega
    have hsp : s.spans[i.toNat]? = none := by
      rw [List.getElem?_eq_none_iff]
      omega
    rw [ChunkStore.getAt]
    simp only [if_neg h0]
    rw [hsp]
  · have h0 : i < (0 : Int) := by omega
    rw [ChunkStore.getAt]
    simp only [if_pos h0]
    rw [if_pos (by omega : i + (s.spans.length : Int) < 0)]

theorem get_slice_ok (s : ChunkStore) (a b : Int)
    (h0 : 0 ≤ (if a < 0 then a + (s.length : Int) else a))
    (h1 : (if a < 0 then a + (s.length : Int) else a) ≤ (s.length : Int)) :
    s.get_slice a b = Except.ok (pySlice s.materialize a b) := by
  have hlen : (s.length : Int) = (s.spans.length : Int) := by rw [ChunkStore.length]
  have hmat : s.materialize.length = s.spans.length := by
    rw [ChunkStore.materialize, List.length_map]
  rw [ChunkStore.get_slice]
  simp only []
  rw [hlen] at h0 h1
  rw [if_neg (by omega :
    ¬ ((if a < 0 then a + (s.spans.length : Int) else a) < 0 ∨
       (s.spans.length : Int) < (if a < 0 then a + (s.spans.length : Int) else a)))]
  rw [pySlice]
  simp only [hmat]
  rw [List.map_drop, List.map_take]
  have htk : (s.spans.map (chunkText s)).take
        (min (if b < 0 then b + (s.spans.length : Int) else b) (s.spans.length : Int)).toNat
      = (s.spans.map (chunkText s)).take (if b < 0 then b + (s.spans.length : Int) else b).toNat := by
    rw [List.take_eq_take]
    rw [List.length_map]
    omega
  rw [htk]
  rfl

theorem get_slice_oob (s : ChunkStore) (a b : Int)
    (h : (if a < 0 then a + (s.length : Int) else a) < 0 ∨
         (s.length : Int) < (if a < 0 then a + (s.length : Int) else a)) :
    s.get_slice a b = Except.error "OutOfRange" := by
  have hlen : (s.length : Int) = (s.spans.length : Int) := by rw [ChunkStore.length]
  rw [ChunkStore.get_slice]
  simp only []
  rw [hlen] at h
  rw [if_pos h]

/-- Decimal digits of an index, zero-padded to the spec's minimum width of
three (`{index:03}`). -/
def pad3 (i : Nat) : List Char :=
  let d := Nat.toDigits 10 i
  List.replicate (3 - d.length) '0' ++ d

/-- Modelled from the spec: the file path of the `i`-th chunk written by
`save_chunks` — `directory/` followed by the prefix and the zero-padded
sequential index. -/
def chunkFilePath (dir pre : List Char) (i : Nat) : List Char :=
  dir ++ '/' :: pre ++ '_' :: pad3 i

/-- Result of `save_chunks`: the plain-text files written (path and exact
content) and the returned count. -/
structure SaveResult where
  files : List (List Char × List Char)
  count : Nat
deriving DecidableEq, Repr

/-- Write loop of Chunk Persistence: one file per chunk, sequential
indices. -/
def saveGo (dir pre : List Char) (i : Nat) : List (List Char) → List (List Char × List Char)
  | [] => []
  | c :: rest => (chunkFilePath dir pre i, c) :: saveGo dir pre (i + 1) rest

/-- Modelled from the spec: `save_chunks(chunks, directory, prefix)` —
creates the directory if absent, writes each chunk's exact text to its own
file named by the prefix and a zero-padded sequential index, and returns
the count of files written. -/
def save_chunks (chunks : List (List Char)) (dir pre : List Char) : SaveResult :=
  let fs := saveGo dir pre 0 chunks
  ⟨fs, fs.length⟩

theorem saveGo_length (dir pre : List Char) (i : Nat) (chunks : List (List Char)) :
    (saveGo dir pre i chunks).length = chunks.length := by
  induction chunks generalizing i with
  | nil => rfl
  | cons c rest ih => simp [saveGo, ih]

theorem saveGo_snd (dir pre : List Char) (i : Nat) (chunks : List (List Char)) :
    (saveGo dir pre i chunks).map Prod.snd = chunks := by
  induction chunks generalizing i with
  | nil => rfl
  | cons c rest ih => simp [saveGo, ih]

theorem saveGo_fst (dir pre : List Char) (i : Nat) (chunks : List (List Char)) :
    (saveGo dir pre i chunks).map Prod.fst
      = (List.range chunks.length).map (fun k => chunkFilePath dir pre (i + k)) := by
  induction chunks generalizing i with
  | nil => rfl
  | cons c rest ih =>
    simp only [saveGo, List.map_cons, List.length_cons, List.range_succ_eq_map,
      List.map_map, ih]
    rw [List.cons.injEq]
    constructor
    · rw [Nat.add_zero]
    · refine List.map_congr_left ?_
      intro k _
      simp only [Function.comp]
      congr 1
      omega

/-- C1: for every parsing mode, every configuration with positive
`chunk_size`, and every input text, each chunk produced by the assembler —
in particular by `parse` — has length at most `chunk_size`: the cascading
fallback (CodeBlock → Paragraph → Sentence → Hard character wrap) reduces
every oversized semantic unit until it fits, so the bound holds for every
input shape. -/
theorem claim_C1_chunk_length_le_chunk_size (mode : Mode) (cfg : Config)
    (t : List Char) (h : 0 < cfg.chunk_size) :
    (∀ c ∈ parse cfg t, c.length ≤ cfg.chunk_size) ∧
    (∀ c ∈ parseMode mode cfg t, c.length ≤ cfg.chunk_size) :=
  ⟨parseMode_bound Mode.plainText cfg t (by omega),
   parseMode_bound mode cfg t (by omega)⟩

theorem claim_C1_witness :
    0 < (3 : Nat) ∧
      ∀ c ∈ parse ⟨3, true⟩ "Hello. World!".toList, c.length ≤ 3 :=
  ⟨by decide,
   (claim_C1_chunk_length_le_chunk_size Mode.code ⟨3, true⟩
      "Hello. World!".toList (by decide)).1⟩

/-- C2: concatenating the chunks of `parse` in order reconstructs the input
text exactly — whitespace used as a boundary signal is redistributed into
adjacent chunks, never dropped. -/
theorem claim_C2_concat_reconstructs (cfg : Config) (t : List Char) :
    (parse cfg t).flatten = t :=
  parse_flatten cfg t

/-- C3: `parse_chunked` is equivalent to `parse` under an identical
configuration — the store's `length()` equals the number of chunks of
`parse`, and the materialized chunk texts equal the chunks of `parse`
element-wise. -/
theorem claim_C3_parse_chunked_equiv (cfg : Config) (t : List Char) :
    (parse_chunked cfg t).length = (parse cfg t).length ∧
    (parse_chunked cfg t).materialize = parse cfg t :=
  ⟨length_parse_chunked cfg t, materialize_parse_chunked cfg t⟩

/-- C4: indexed access `at(i)` on any Chunk Store returns the i-th chunk
(left to right) for `0 ≤ i < length()`, the `(length()+i)`-th chunk for
`-length() ≤ i < 0` (so `at(-1)` is the last chunk), and fails with an
OutOfRange error exactly when `i ≥ length()` or `i < -length()`. -/
theorem claim_C4_getAt_indexing (s : ChunkStore) (i : Int) :
    (0 ≤ i → i < (s.length : Int) →
      ∃ c, s.materialize[i.toNat]? = some c ∧ s.getAt i = Except.ok c) ∧
    (i < 0 → -(s.length : Int) ≤ i →
      ∃ c, s.materialize[(i + s.length).toNat]? = some c ∧
        s.getAt i = Except.ok c) ∧
    ((s.length : Int) ≤ i ∨ i < -(s.length : Int) →
      s.getAt i = Except.error "OutOfRange") :=
  ⟨fun h0 h1 => getAt_nonneg s i h0 h1,
   fun h0 h1 => getAt_neg s i h0 h1,
   fun h => getAt_oob s i h⟩

theorem claim_C4_witness :
    (parse_chunked ⟨1, true⟩ "abcde".toList).getAt 10
        = Except.error "OutOfRange" ∧
    (∃ c, (parse_chunked ⟨1, true⟩ "abcde".toList).materialize[(0 : Int).toNat]?
        = some c ∧
      (parse_chunked ⟨1, true⟩ "abcde".toList).getAt 0 = Except.ok c) ∧
    (∃ c, (parse_chunked ⟨1, true⟩ "abcde".toList).materialize[
          ((-1 : Int) + (parse_chunked ⟨1, true⟩ "abcde".toList).length).toNat]?
        = some c ∧
      (parse_chunked ⟨1, true⟩ "abcde".toList).getAt (-1) = Except.ok c) :=
  ⟨(claim_C4_getAt_indexing (parse_chunked ⟨1, true⟩ "abcde".toList) 10).2.2
      (Or.inl (by decide)),
   (claim_C4_getAt_indexing (parse_chunked ⟨1, true⟩ "abcde".toList) 0).1
      (by decide) (by decide),
   (claim_C4_getAt_indexing (parse_chunked ⟨1, true⟩ "abcde".toList) (-1)).2.1
      (by decide) (by decide)⟩

/-- C5: `slice(a, b)` on a store built by `parse_chunked(T)` returns the
chunks of `parse(T)[a:b]` under Python-slice clamping of the end bound
(never an error for an out-of-range end), and errors with OutOfRange
exactly when the start index is invalid. -/
theorem claim_C5_get_slice_pySlice (cfg : Config) (t : List Char) (a b : Int) :
    (0 ≤ (if a < 0 then a + ((parse_chunked cfg t).length : Int) else a) →
     (if a < 0 then a + ((parse_chunked cfg t).length : Int) else a)
         ≤ ((parse_chunked cfg t).length : Int) →
      (parse_chunked cfg t).get_slice a b
        = Except.ok (pySlice (parse cfg t) a b)) ∧
    ((if a < 0 then a + ((parse_chunked cfg t).length : Int) else a) < 0 ∨
     ((parse_chunked cfg t).length : Int)
         < (if a < 0 then a + ((parse_chunked cfg t).length : Int) else a) →
      (parse_chunked cfg t).get_slice a b = Except.error "OutOfRange") := by
  constructor
  · intro h0 h1
    have hok := get_slice_ok (parse_chunked cfg t) a b h0 h1
    rwa [materialize_parse_chunked cfg t] at hok
  · exact get_slice_oob (parse_chunked cfg t) a b

theorem claim_C5_witness :
    (parse_chunked ⟨1, true⟩ "abcde".toList).get_slice 1 10
        = Except.ok (pySlice (parse ⟨1, true⟩ "abcde".toList) 1 10) ∧
    (parse_chunked ⟨1, true⟩ "abcde".toList).get_slice 7 9
        = Except.error "OutOfRange" :=
  ⟨(claim_C5_get_slice_pySlice ⟨1, true⟩ "abcde".toList 1 10).1
      (by decide) (by decide),
   (claim_C5_get_slice_pySlice ⟨1, true⟩ "abcde".toList 7 9).2
      (by decide)⟩

/-- C6: the `total_size` of the store returned by `parse_chunked(T)` equals
the length of T — the sum of original document bytes spanned by the
chunks. -/
theorem claim_C6_total_size (cfg : Config) (t : List Char) :
    (parse_chunked cfg t).total_size = t.length :=
  total_size_parse_chunked cfg t

/-- C7: a document shorter than `chunk_size` yields exactly one chunk, and
the empty document yields an empty chunk sequence. -/
theorem claim_C7_small_doc (cfg : Config) (t : List Char) :
    (t ≠ [] → t.length < cfg.chunk_size → parse cfg t = [t]) ∧
    parse cfg [] = [] :=
  ⟨fun ht hlen => parse_single cfg t ht (Nat.le_of_lt hlen), parse_nil cfg⟩

theorem claim_C7_witness :
    parse ⟨10, true⟩ "hi".toList = ["hi".toList] ∧ parse ⟨10, true⟩ [] = [] :=
  ⟨(claim_C7_small_doc ⟨10, true⟩ "hi".toList).1 (by decide) (by decide),
   (claim_C7_small_doc ⟨10, true⟩ "hi".toList).2⟩

/-- C8: parsing is deterministic — identical text and configuration always
produce identical chunk sequences, in every mode and in the chunked form;
the model is a pure function of its inputs with no randomness or external
state. -/
theorem claim_C8_deterministic (cfg1 cfg2 : Config) (t1 t2 : List Char)
    (hc : cfg1 = cfg2) (ht : t1 = t2) :
    parse cfg1 t1 = parse cfg2 t2 ∧
    parseMode Mode.code cfg1 t1 = parseMode Mode.code cfg2 t2 ∧
    parse_chunked cfg1 t1 = parse_chunked cfg2 t2 := by
  subst hc
  subst ht
  exact ⟨rfl, rfl, rfl⟩

theorem claim_C8_witness :
    parse ⟨4, true⟩ "abc".toList = parse ⟨4, true⟩ "abc".toList :=
  (claim_C8_deterministic ⟨4, true⟩ ⟨4, true⟩ "abc".toList "abc".toList
    rfl rfl).1

/-- C9: `save_chunks(chunks, directory, prefix)` writes each chunk's exact
text to its own file named by the prefix and a zero-padded sequential index
under the directory, and returns the count of files written; in particular
saving `["a","b","c"]` under `out` with prefix `story` writes exactly the
files `out/story_000`, `out/story_001`, `out/story_002` with those contents
and returns 3. -/
theorem claim_C9_save_chunks (chunks : List (List Char)) (dir pre : List Char) :
    (save_chunks chunks dir pre).count = chunks.length ∧
    (save_chunks chunks dir pre).files.map Prod.snd = chunks ∧
    (save_chunks chunks dir pre).files.map Prod.fst
      = (List.range chunks.length).map (chunkFilePath dir pre) ∧
    save_chunks [['a'], ['b'], ['c']] "out".toList "story".toList
      = ⟨[("out/story_000".toList, ['a']),
          ("out/story_001".toList, ['b']),
          ("out/story_002".toList, ['c'])], 3⟩ := by
  refine ⟨?_, ?_, ?_, by decide⟩
  · rw [save_chunks]
    exact saveGo_length dir pre 0 chunks
  · rw [save_chunks]
    exact saveGo_snd dir pre 0 chunks
  · rw [save_chunks]
    rw [saveGo_fst dir pre 0 chunks]
    refine List.map_congr_left ?_
    intro k _
    rw [Nat.zero_add]

/-- C10: a non-empty document with positive `chunk_size` always parses to a
non-empty chunk sequence, and the corresponding store has `length() ≥ 1`. -/
theorem claim_C10_nonempty (cfg : Config) (t : List Char)
    (ht : t ≠ []) (hn : 0 < cfg.chunk_size) :
    parse cfg t ≠ [] ∧ 1 ≤ (parse_chunked cfg t).length := by
  have hne : parse cfg t ≠ [] := by
    intro h
    apply ht
    have hflat := parse_flatten cfg t
    rw [h] at hflat
    simpa using hflat.symm
  refine ⟨hne, ?_⟩
  rw [length_parse_chunked]
  cases hp : parse cfg t with
  | nil => exact absurd hp hne
  | cons c rest => simp

theorem claim_C10_witness :
    parse ⟨3, true⟩ "hello".toList ≠ [] ∧
      1 ≤ (parse_chunked ⟨3, true⟩ "hello".toList).length :=
  claim_C10_nonempty ⟨3, true⟩ "hello".toList (by decide) (by decide)

end CrabParser
